import Mathlib

/-!
Verification of the SRAM_techscreen drivetrain program.

Shallow embedding of `src/drivetrain.py`:
* cog tooth counts are natural numbers (Python ints, always nonnegative here),
* gear ratios are rationals (`ℚ`), the idealized value of Python's float
  division `front / rear`,
* the exceptions `GearRatioNotFoundError` and `ValueError` (the latter raised
  by `list.index` when the element is absent) become an error type carried by
  `Except`.

Positivity of rear cogs appears as a hypothesis where a theorem's statement
depends on gear ratios: the spec's data model fixes cog sets as positive
integers, and Python would raise `ZeroDivisionError` on a zero rear cog
rather than return a value.
-/

open scoped List

namespace SRAM

/-- Data of the Python `Drivetrain` class: the two cog lists stored on the
instance (`self.front_cogs`, `self.rear_cogs`). -/
structure Drivetrain where
  front_cogs : List ℕ
  rear_cogs : List ℕ
deriving DecidableEq, Repr

/-- The `Drivetrain.__init__` constructor: stores `sorted(front_cogs)` and
`sorted(rear_cogs)`.  Python's `sorted` is an ascending stable sort, embedded
as the stable `List.insertionSort`. -/
def mkDrivetrain (front_cogs rear_cogs : List ℕ) : Drivetrain :=
  { front_cogs := front_cogs.insertionSort (· ≤ ·)
    rear_cogs := rear_cogs.insertionSort (· ≤ ·) }

/-- The static method `Drivetrain.gear_ratio`: `front_teeth / rear_teeth`
as an exact rational. -/
def gear_ratio (front_teeth rear_teeth : ℕ) : ℚ :=
  (front_teeth : ℚ) / (rear_teeth : ℚ)

/-- A `(front_teeth, rear_teeth, ratio)` triple as returned by the Python
methods. -/
abbrev Combo := ℕ × ℕ × ℚ

/-- The error conditions the Python methods can raise:
`GearRatioNotFoundError`, and the built-in `ValueError` that `list.index`
raises when the element is absent. -/
inductive DtError where
  | gearRatioNotFound
  | valueError
deriving DecidableEq, Repr

/-- The list `valid_combinations` built by the nested loops of
`get_gear_combination`: for each `f` in `self.front_cogs` (outer loop) and
each `r` in `self.rear_cogs` (inner loop), the triple `(f, r, ratio)` is
appended when `ratio <= target_ratio`. -/
def valid_combinations (d : Drivetrain) (target_ratio : ℚ) : List Combo :=
  d.front_cogs.flatMap (fun f =>
    (d.rear_cogs.map (fun r => (f, r, gear_ratio f r))).filter
      (fun c => decide (c.2.2 ≤ target_ratio)))

/-- The comparison used by `valid_combinations.sort(key=lambda combo: combo[2],
reverse=True)`: a stable sort placing larger ratios first. -/
def ratio_desc (a b : Combo) : Prop := b.2.2 ≤ a.2.2

instance : DecidableRel ratio_desc :=
  fun a b => inferInstanceAs (Decidable (b.2.2 ≤ a.2.2))

instance : IsTotal Combo ratio_desc := ⟨fun a b => le_total b.2.2 a.2.2⟩

instance : IsTrans Combo ratio_desc := ⟨fun _ _ _ hab hbc => le_trans hbc hab⟩

/-- The method `Drivetrain.get_gear_combination`: build `valid_combinations`,
raise `GearRatioNotFoundError` when it is empty (the stable sort of a
nonempty list is nonempty, so matching on the sorted list is the same test),
and otherwise return the head of the stable descending-by-ratio sort. -/
def get_gear_combination (d : Drivetrain) (target_ratio : ℚ) :
    Except DtError Combo :=
  match (valid_combinations d target_ratio).insertionSort ratio_desc with
  | [] => .error .gearRatioNotFound
  | c :: _ => .ok c

/-- The helper closure `record_step` of `get_shift_sequence`: a step is
`(f, r, self.gear_ratio(f, r))`. -/
def record_step (f r : ℕ) : Combo := (f, r, gear_ratio f r)

/-- Python's `list.index`, returning the first index of `x`, or `none` where
Python raises `ValueError`. -/
def index_of (x : ℕ) : List ℕ → Option ℕ
  | [] => none
  | y :: t => if y = x then some 0 else (index_of x t).map (· + 1)

/-- The `candidate_rears` list of `get_shift_sequence`: ascending through the
rear cogs (`[r for r in self.rear_cogs if r >= current_rear]`) when
`final_rear > current_rear`, otherwise descending
(`[r for r in reversed(self.rear_cogs) if r <= current_rear]`). -/
def candidate_rears (d : Drivetrain) (current_rear final_rear : ℕ) : List ℕ :=
  if final_rear > current_rear then
    d.rear_cogs.filter (fun r => decide (current_rear ≤ r))
  else
    d.rear_cogs.reverse.filter (fun r => decide (r ≤ current_rear))

/-- The index range walked by the rear-shifting loop:
`range(step_index, final_index + 1)` when `final_index >= step_index`, else
`range(step_index, final_index - 1, -1)` (the indices from `step_index` down
to `final_index`). -/
def step_range (step_index final_index : ℕ) : List ℕ :=
  if final_index ≥ step_index then
    List.range' step_index (final_index + 1 - step_index)
  else
    (List.range' final_index (step_index + 1 - final_index)).reverse

/-- The rear-shifting loop of `get_shift_sequence`: for each index `i` of the
range, look up `new_rear = candidate_rears[i]` and, when it differs from
`current_rear`, update `current_rear` and record a step.  (The out-of-bounds
case of the lookup cannot occur, since the range runs between two valid
indices; it is a no-op here.) -/
def walk_rears (current_front : ℕ) (cands : List ℕ) :
    List ℕ → ℕ → List Combo
  | [], _ => []
  | i :: rest, current_rear =>
    match cands[i]? with
    | some new_rear =>
      if new_rear ≠ current_rear then
        record_step current_front new_rear ::
          walk_rears current_front cands rest new_rear
      else
        walk_rears current_front cands rest current_rear
    | none => walk_rears current_front cands rest current_rear

/-- The method `Drivetrain.get_shift_sequence`: run the combination search
(propagating its error), record the initial gear, jump the front cog directly
when it differs, then step through the rear cogs via `candidate_rears`,
`list.index` (whose failure is `ValueError`) and the index range. -/
def get_shift_sequence (d : Drivetrain) (target_ratio : ℚ)
    (initial_gear : ℕ × ℕ) : Except DtError (List Combo) := do
  let best ← get_gear_combination d target_ratio
  let final_front := best.1
  let final_rear := best.2.1
  let initial_front := initial_gear.1
  let initial_rear := initial_gear.2
  let seq0 := [record_step initial_front initial_rear]
  let current_front :=
    if initial_front ≠ final_front then final_front else initial_front
  let seq1 :=
    if initial_front ≠ final_front then
      seq0 ++ [record_step final_front initial_rear]
    else seq0
  if initial_rear ≠ final_rear then
    let cands := candidate_rears d initial_rear final_rear
    match index_of initial_rear cands, index_of final_rear cands with
    | some step_index, some final_index =>
      .ok (seq1 ++
        walk_rears current_front cands (step_range step_index final_index)
          initial_rear)
    | _, _ => .error .valueError
  else
    .ok seq1

/-- Rendering of a rational to three decimal places, the embedding of the
format specifier `:.3f` used by `format_shift_sequence`. -/
def format_ratio_3dp (q : ℚ) : String :=
  let n : ℤ := round (q * 1000)
  let a := n.natAbs
  let fracPart := a % 1000
  let pad := if fracPart < 10 then "00" else if fracPart < 100 then "0" else ""
  (if n < 0 then "-" else "") ++ toString (a / 1000) ++ "." ++ pad ++
    toString fracPart

/-- The method `Drivetrain.format_shift_sequence`: one line
`Front: {f}, Rear: {r}, Ratio: {ratio:.3f}` per step, newline-joined. -/
def format_shift_sequence (_d : Drivetrain) (shift_sequence : List Combo) :
    String :=
  String.intercalate "\n" (shift_sequence.map (fun s =>
    "Front: " ++ toString s.1 ++ ", Rear: " ++ toString s.2.1 ++
      ", Ratio: " ++ format_ratio_3dp s.2.2))

/-! Basic lemmas about the search. -/

theorem mem_valid_combinations {d : Drivetrain} {t : ℚ} {f r : ℕ} {q : ℚ} :
    (f, r, q) ∈ valid_combinations d t ↔
      f ∈ d.front_cogs ∧ r ∈ d.rear_cogs ∧ q = gear_ratio f r ∧ q ≤ t := by
  simp only [valid_combinations, List.mem_flatMap, List.mem_filter,
    List.mem_map, decide_eq_true_eq]
  constructor
  · rintro ⟨a, ha, ⟨⟨b, hb, heq⟩, hle⟩⟩
    simp only [Prod.mk.injEq] at heq
    obtain ⟨rfl, rfl, rfl⟩ := heq
    exact ⟨ha, hb, rfl, hle⟩
  · rintro ⟨hf, hr, rfl, hle⟩
    exact ⟨f, hf, ⟨r, hr, rfl⟩, hle⟩

theorem valid_combinations_eq_nil_iff {d : Drivetrain} {t : ℚ} :
    valid_combinations d t = [] ↔
      ∀ f ∈ d.front_cogs, ∀ r ∈ d.rear_cogs, ¬ gear_ratio f r ≤ t := by
  rw [List.eq_nil_iff_forall_not_mem]
  constructor
  · intro h f hf r hr hle
    exact h (f, r, gear_ratio f r) (mem_valid_combinations.mpr ⟨hf, hr, rfl, hle⟩)
  · rintro h ⟨f, r, q⟩ hc
    obtain ⟨hf, hr, hq, hle⟩ := mem_valid_combinations.mp hc
    exact h _ hf _ hr (hq ▸ hle)

theorem insertionSort_eq_nil_iff {α : Type} {l : List α} {r : α → α → Prop}
    [DecidableRel r] : l.insertionSort r = [] ↔ l = [] := by
  constructor
  · intro h
    have := congrArg List.length h
    simp only [List.length_insertionSort, List.length_nil] at this
    exact List.eq_nil_of_length_eq_zero this
  · intro h
    simp [h]

/-- The search fails exactly when `valid_combinations` is empty. -/
theorem get_gear_combination_eq_error_iff {d : Drivetrain} {t : ℚ} :
    get_gear_combination d t = .error .gearRatioNotFound ↔
      valid_combinations d t = [] := by
  unfold get_gear_combination
  rcases h : (valid_combinations d t).insertionSort ratio_desc with _ | ⟨c, rest⟩
  · simp only [true_iff]
    exact insertionSort_eq_nil_iff.mp h
  · simp only [reduceCtorEq, false_iff]
    intro hnil
    rw [hnil] at h
    simp [List.insertionSort] at h

/-- On success, the returned combination is the head of the stable sort, is a
member of `valid_combinations`, and its ratio dominates every member's. -/
theorem get_gear_combination_ok {d : Drivetrain} {t : ℚ} {c : Combo}
    (h : get_gear_combination d t = .ok c) :
    c ∈ valid_combinations d t ∧
      ∀ c' ∈ valid_combinations d t, c'.2.2 ≤ c.2.2 := by
  unfold get_gear_combination at h
  rcases hs : (valid_combinations d t).insertionSort ratio_desc
      with _ | ⟨b, rest⟩ <;> rw [hs] at h
  · simp at h
  · simp only [Except.ok.injEq] at h
    subst h
    have hmem : b ∈ valid_combinations d t := by
      rw [← List.mem_insertionSort ratio_desc, hs]
      exact List.mem_cons_self _ _
    refine ⟨hmem, ?_⟩
    intro c' hc'
    have hsorted : ((valid_combinations d t).insertionSort ratio_desc).Sorted
        ratio_desc := List.sorted_insertionSort ratio_desc _
    rw [hs] at hsorted
    rw [← List.mem_insertionSort ratio_desc, hs] at hc'
    rcases List.mem_cons.mp hc' with rfl | htail
    · exact le_refl _
    · exact List.rel_of_sorted_cons hsorted c' htail

theorem get_gear_combination_isOk {d : Drivetrain} {t : ℚ}
    (hne : valid_combinations d t ≠ []) :
    ∃ c, get_gear_combination d t = .ok c := by
  unfold get_gear_combination
  rcases hs : (valid_combinations d t).insertionSort ratio_desc with _ | ⟨b, rest⟩
  · exact absurd (insertionSort_eq_nil_iff.mp hs) hne
  · exact ⟨b, rfl⟩

/-- On success the returned triple's components are a front cog, a rear cog,
their exact ratio, and the ratio is within the target. -/
theorem get_gear_combination_ok_fields {d : Drivetrain} {t : ℚ} {f r : ℕ}
    {q : ℚ} (h : get_gear_combination d t = .ok (f, r, q)) :
    f ∈ d.front_cogs ∧ r ∈ d.rear_cogs ∧ q = gear_ratio f r ∧ q ≤ t :=
  mem_valid_combinations.mp (get_gear_combination_ok h).1

/-- C1: for a drivetrain with nonempty cog lists and an achievable target,
`get_gear_combination` returns a triple `(f, r, ratio)` with `f` a front cog,
`r` a rear cog, `ratio = f/r ≤ target`, and no cross-product pair admissible
for the target has a strictly greater ratio. -/
theorem get_gear_combination_correct (d : Drivetrain) (t : ℚ)
    (hpos : ∀ r ∈ d.rear_cogs, 0 < r)
    (hfne : d.front_cogs ≠ []) (hrne : d.rear_cogs ≠ [])
    (hach : ∃ f ∈ d.front_cogs, ∃ r ∈ d.rear_cogs, gear_ratio f r ≤ t) :
    ∃ f r q, get_gear_combination d t = .ok (f, r, q) ∧
      f ∈ d.front_cogs ∧ r ∈ d.rear_cogs ∧ q = gear_ratio f r ∧ q ≤ t ∧
      ∀ fa ∈ d.front_cogs, ∀ ra ∈ d.rear_cogs,
        gear_ratio fa ra ≤ t → gear_ratio fa ra ≤ q := by
  have hne : valid_combinations d t ≠ [] := by
    obtain ⟨f, hf, r, hr, hle⟩ := hach
    intro h0
    exact (valid_combinations_eq_nil_iff.mp h0) f hf r hr hle
  obtain ⟨⟨f, r, q⟩, hc⟩ := get_gear_combination_isOk hne
  obtain ⟨hf, hr, hq, hle⟩ := get_gear_combination_ok_fields hc
  refine ⟨f, r, q, hc, hf, hr, hq, hle, ?_⟩
  intro fa hfa ra hra hra_le
  have hmem : (fa, ra, gear_ratio fa ra) ∈ valid_combinations d t :=
    mem_valid_combinations.mpr ⟨hfa, hra, rfl, hra_le⟩
  exact (get_gear_combination_ok hc).2 _ hmem

/-- Witness for C1 at the repository's example drivetrain with target 8/5. -/
theorem get_gear_combination_correct_witness :
    (∀ r ∈ (mkDrivetrain [30, 38] [16, 19, 23, 28]).rear_cogs, 0 < r) ∧
    (mkDrivetrain [30, 38] [16, 19, 23, 28]).front_cogs ≠ [] ∧
    (mkDrivetrain [30, 38] [16, 19, 23, 28]).rear_cogs ≠ [] ∧
    (∃ f ∈ (mkDrivetrain [30, 38] [16, 19, 23, 28]).front_cogs,
      ∃ r ∈ (mkDrivetrain [30, 38] [16, 19, 23, 28]).rear_cogs,
        gear_ratio f r ≤ 8/5) ∧
    (∃ f r q, get_gear_combination (mkDrivetrain [30, 38] [16, 19, 23, 28])
        (8/5) = .ok (f, r, q) ∧
      f ∈ (mkDrivetrain [30, 38] [16, 19, 23, 28]).front_cogs ∧
      r ∈ (mkDrivetrain [30, 38] [16, 19, 23, 28]).rear_cogs ∧
      q = gear_ratio f r ∧ q ≤ 8/5 ∧
      ∀ fa ∈ (mkDrivetrain [30, 38] [16, 19, 23, 28]).front_cogs,
        ∀ ra ∈ (mkDrivetrain [30, 38] [16, 19, 23, 28]).rear_cogs,
          gear_ratio fa ra ≤ 8/5 → gear_ratio fa ra ≤ q) :=
  ⟨by decide, by decide, by decide,
    ⟨30, by decide, 19, by decide, by norm_num [gear_ratio]⟩,
    get_gear_combination_correct _ _ (by decide) (by decide) (by decide)
      ⟨30, by decide, 19, by decide, by norm_num [gear_ratio]⟩⟩

/-- Distinct cogs on both sides make the enumeration of valid combinations
duplicate-free: each triple is determined by its (front, rear) pair. -/
theorem nodup_valid_combinations {d : Drivetrain} {t : ℚ}
    (hf : d.front_cogs.Nodup) (hr : d.rear_cogs.Nodup) :
    (valid_combinations d t).Nodup := by
  unfold valid_combinations
  rw [List.nodup_flatMap]
  constructor
  · intro f _
    refine List.Nodup.filter _ (List.Nodup.map ?_ hr)
    intro r1 r2 h12
    simpa using congrArg (fun c : Combo => c.2.1) h12
  · refine hf.imp ?_
    intro f1 f2 hne
    rw [Function.onFun, List.disjoint_left]
    intro a ha1 ha2
    rw [List.mem_filter] at ha1 ha2
    obtain ⟨r1, -, hr1⟩ := List.mem_map.mp ha1.1
    obtain ⟨r2, -, hr2⟩ := List.mem_map.mp ha2.1
    have e1 := congrArg (fun c : Combo => c.1) hr1
    have e2 := congrArg (fun c : Combo => c.1) hr2
    simp only at e1 e2
    exact hne (e1 ▸ e2 ▸ rfl)

/-- C5: with distinct cogs, the combination returned on success is the first
element, in front-major rear-minor enumeration order over the ascending cog
lists (which is exactly the order of `valid_combinations` on a constructed
drivetrain), among those attaining the maximum admissible ratio: every
enumerated combination strictly before it has a strictly smaller ratio, and
none anywhere has a larger one. -/
theorem get_gear_combination_tie_break (front rear : List ℕ) (t : ℚ)
    (hf : front.Nodup) (hr : rear.Nodup) (hpos : ∀ x ∈ rear, 0 < x)
    (c : Combo)
    (h : get_gear_combination (mkDrivetrain front rear) t = .ok c) :
    ∃ l₁ l₂, valid_combinations (mkDrivetrain front rear) t = l₁ ++ c :: l₂ ∧
      (∀ b ∈ l₁, b.2.2 < c.2.2) ∧
      (∀ b ∈ valid_combinations (mkDrivetrain front rear) t,
        b.2.2 ≤ c.2.2) := by
  set d := mkDrivetrain front rear with hd
  have hfn : d.front_cogs.Nodup :=
    ((List.perm_insertionSort (· ≤ ·) front).nodup_iff).mpr hf
  have hrn : d.rear_cogs.Nodup :=
    ((List.perm_insertionSort (· ≤ ·) rear).nodup_iff).mpr hr
  have hvc : (valid_combinations d t).Nodup := nodup_valid_combinations hfn hrn
  obtain ⟨hmem, hmax⟩ := get_gear_combination_ok h
  obtain ⟨l₁, l₂, hsplit⟩ := List.append_of_mem hmem
  have hnotmem : c ∉ l₁ := by
    rw [hsplit] at hvc
    intro hmem1
    have := List.disjoint_of_nodup_append hvc hmem1 (List.mem_cons_self _ _)
    exact this
  refine ⟨l₁, l₂, hsplit, ?_, hmax⟩
  intro b hb
  have hbne : b ≠ c := fun hbc => hnotmem (hbc ▸ hb)
  have hble : b.2.2 ≤ c.2.2 :=
    hmax b (by rw [hsplit]; exact List.mem_append_left _ hb)
  rcases lt_or_eq_of_le hble with hlt | heq
  · exact hlt
  · exfalso
    -- a tie: stability of the sort would put `b` before `c` in the output,
    -- contradicting that `c` is the head
    have hdesc : ratio_desc b c := le_of_eq heq.symm
    have hpair : [b, c] <+ valid_combinations d t := by
      obtain ⟨s, s', hbsplit⟩ := List.append_of_mem hb
      rw [hsplit, hbsplit, List.append_assoc, List.cons_append]
      refine List.Sublist.trans ?_ (List.sublist_append_right s _)
      exact (List.singleton_sublist.mpr
        (List.mem_append_right s' (List.mem_cons_self c l₂))).cons₂ b
    have hsub : [b, c] <+
        (valid_combinations d t).insertionSort ratio_desc :=
      List.sublist_insertionSort (List.pairwise_pair.mpr hdesc) hpair
    unfold get_gear_combination at h
    rcases hs : (valid_combinations d t).insertionSort ratio_desc
        with _ | ⟨hc, rest⟩ <;> rw [hs] at h hsub
    · simp at h
    · simp only [Except.ok.injEq] at h
      subst h
      have hnds : (hc :: rest).Nodup := by
        rw [← hs]
        exact ((List.perm_insertionSort ratio_desc _).nodup_iff).mpr hvc
      rcases List.sublist_cons_iff.mp hsub with htail | ⟨r', hcons, -⟩
      · exact (List.nodup_cons.mp hnds).1 (htail.subset (by simp))
      · exact hbne (by simpa using congrArg (fun l => l.head?) hcons)

/-- Witness for C5 at the example drivetrain with target 8/5, where the search
returns (30, 19, 30/19). -/
theorem get_gear_combination_tie_break_witness :
    [30, 38].Nodup ∧ [16, 19, 23, 28].Nodup ∧
    (∀ x ∈ [16, 19, 23, 28], 0 < x) ∧
    (∃ l₁ l₂, valid_combinations (mkDrivetrain [30, 38] [16, 19, 23, 28])
        (8/5) = l₁ ++ (30, 19, (30:ℚ)/19) :: l₂ ∧
      (∀ b ∈ l₁, b.2.2 < ((30, 19, (30:ℚ)/19) : Combo).2.2) ∧
      (∀ b ∈ valid_combinations (mkDrivetrain [30, 38] [16, 19, 23, 28]) (8/5),
        b.2.2 ≤ ((30, 19, (30:ℚ)/19) : Combo).2.2)) :=
  ⟨by decide, by decide, by decide,
    get_gear_combination_tie_break [30, 38] [16, 19, 23, 28] (8/5)
      (by decide) (by decide) (by decide) (30, 19, (30:ℚ)/19)
      (by norm_num [get_gear_combination, valid_combinations, mkDrivetrain,
        gear_ratio, List.insertionSort, List.orderedInsert, ratio_desc])⟩

/-- C7: the search signals `GearRatioNotFound` exactly when the front list is
empty, or the rear list is empty, or every cross-product pair's ratio exceeds
the target; and `GearRatioNotFound` is the only error it can signal. -/
theorem gearRatioNotFound_iff (d : Drivetrain) (t : ℚ)
    (hpos : ∀ r ∈ d.rear_cogs, 0 < r) :
    (get_gear_combination d t = .error .gearRatioNotFound ↔
      (d.front_cogs = [] ∨ d.rear_cogs = [] ∨
        ∀ f ∈ d.front_cogs, ∀ r ∈ d.rear_cogs, t < gear_ratio f r)) ∧
    (∀ e, get_gear_combination d t = .error e → e = .gearRatioNotFound) := by
  constructor
  · rw [get_gear_combination_eq_error_iff, valid_combinations_eq_nil_iff]
    constructor
    · intro h
      exact Or.inr (Or.inr (fun f hf r hr => lt_of_not_le (h f hf r hr)))
    · rintro (h | h | h) f hf r hr
      · rw [h] at hf; simp at hf
      · rw [h] at hr; simp at hr
      · exact not_le_of_lt (h f hf r hr)
  · intro e he
    unfold get_gear_combination at he
    rcases hs : (valid_combinations d t).insertionSort ratio_desc
        with _ | ⟨b, rest⟩ <;> rw [hs] at he
    · simpa using he.symm
    · simp at he

/-- Witness for C7 at the example drivetrain with unachievable target 3/10. -/
theorem gearRatioNotFound_iff_witness :
    (∀ r ∈ (mkDrivetrain [30, 38] [16, 19, 23, 28]).rear_cogs, 0 < r) ∧
    ((get_gear_combination (mkDrivetrain [30, 38] [16, 19, 23, 28]) (3/10) =
        .error .gearRatioNotFound ↔
      ((mkDrivetrain [30, 38] [16, 19, 23, 28]).front_cogs = [] ∨
        (mkDrivetrain [30, 38] [16, 19, 23, 28]).rear_cogs = [] ∨
        ∀ f ∈ (mkDrivetrain [30, 38] [16, 19, 23, 28]).front_cogs,
          ∀ r ∈ (mkDrivetrain [30, 38] [16, 19, 23, 28]).rear_cogs,
            3/10 < gear_ratio f r)) ∧
    (∀ e, get_gear_combination (mkDrivetrain [30, 38] [16, 19, 23, 28])
        (3/10) = .error e → e = .gearRatioNotFound)) :=
  ⟨by decide, gearRatioNotFound_iff (mkDrivetrain [30, 38] [16, 19, 23, 28])
    (3/10) (by decide)⟩

/-- C8: a `GearRatioNotFound` failure of the search is propagated unchanged by
`get_shift_sequence`, for any initial gear, and no sequence is produced. -/
theorem shift_sequence_propagates_error (d : Drivetrain) (t : ℚ) (g : ℕ × ℕ)
    (e : DtError) (h : get_gear_combination d t = .error e) :
    get_shift_sequence d t g = .error e ∧
      ∀ l, get_shift_sequence d t g ≠ .ok l := by
  have hseq : get_shift_sequence d t g = .error e := by
    unfold get_shift_sequence
    rw [h]
    rfl
  exact ⟨hseq, fun l hl => by rw [hseq] at hl; exact Except.noConfusion hl⟩

theorem index_of_eq_none_iff {x : ℕ} {l : List ℕ} :
    index_of x l = none ↔ x ∉ l := by
  induction l with
  | nil => simp [index_of]
  | cons y t ih =>
    by_cases hxy : y = x
    · subst hxy
      simp [index_of]
    · simp [index_of, hxy, ih, Ne.symm hxy]

theorem mem_of_mem_candidate_rears {d : Drivetrain} {cur fnl x : ℕ}
    (h : x ∈ candidate_rears d cur fnl) : x ∈ d.rear_cogs := by
  unfold candidate_rears at h
  split at h
  · exact (List.mem_filter.mp h).1
  · exact List.mem_reverse.mp (List.mem_filter.mp h).1

/-- The head of the upward filter of an ascending sorted list containing
`cur` is `cur` itself. -/
theorem head_filter_ge {cur : ℕ} :
    ∀ {l : List ℕ}, l.Pairwise (· ≤ ·) → cur ∈ l →
      (l.filter (fun x => decide (cur ≤ x))).head? = some cur := by
  intro l
  induction l with
  | nil => simp
  | cons y t ih =>
    intro hs hmem
    rcases List.mem_cons.mp hmem with rfl | hmem
    · simp [List.filter_cons]
    · by_cases hcy : cur ≤ y
      · have hyc : y ≤ cur := (List.pairwise_cons.mp hs).1 cur hmem
        obtain rfl : y = cur := le_antisymm hyc hcy
        simp [List.filter_cons]
      · simp only [List.filter_cons, decide_eq_true_eq, if_neg hcy]
        exact ih (List.pairwise_cons.mp hs).2 hmem

/-- The head of the downward filter of a descending sorted list containing
`cur` is `cur` itself. -/
theorem head_filter_le {cur : ℕ} :
    ∀ {l : List ℕ}, l.Pairwise (fun a b => b ≤ a) → cur ∈ l →
      (l.filter (fun x => decide (x ≤ cur))).head? = some cur := by
  intro l
  induction l with
  | nil => simp
  | cons y t ih =>
    intro hs hmem
    rcases List.mem_cons.mp hmem with rfl | hmem
    · simp [List.filter_cons]
    · by_cases hcy : y ≤ cur
      · have hyc : cur ≤ y := (List.pairwise_cons.mp hs).1 cur hmem
        obtain rfl : y = cur := le_antisymm hcy hyc
        simp [List.filter_cons]
      · simp only [List.filter_cons, decide_eq_true_eq, if_neg hcy]
        exact ih (List.pairwise_cons.mp hs).2 hmem

/-- On a drivetrain whose rear cogs are ascending sorted, the candidate rear
list starts with the current rear cog. -/
theorem candidate_rears_head {d : Drivetrain} {cur fnl : ℕ}
    (hsort : d.rear_cogs.Pairwise (· ≤ ·)) (hmem : cur ∈ d.rear_cogs) :
    (candidate_rears d cur fnl).head? = some cur := by
  unfold candidate_rears
  split
  · exact head_filter_ge hsort hmem
  · refine head_filter_le ?_ (List.mem_reverse.mpr hmem)
    exact List.pairwise_reverse.mpr hsort

theorem mem_candidate_rears_final {d : Drivetrain} {cur fnl : ℕ}
    (hfm : fnl ∈ d.rear_cogs) (hne : cur ≠ fnl) :
    fnl ∈ candidate_rears d cur fnl := by
  unfold candidate_rears
  split
  · next hgt => exact List.mem_filter.mpr ⟨hfm, by simpa using le_of_lt hgt⟩
  · next hngt =>
    refine List.mem_filter.mpr ⟨List.mem_reverse.mpr hfm, ?_⟩
    simp only [decide_eq_true_eq]
    omega

theorem index_of_exists_of_mem {x : ℕ} {l : List ℕ} (h : x ∈ l) :
    ∃ i, index_of x l = some i := by
  rcases hi : index_of x l with _ | i
  · exact absurd (index_of_eq_none_iff.mp hi) (by simpa using h)
  · exact ⟨i, rfl⟩

/-- `index_of` returns the first index holding the element. -/
theorem index_of_some {x : ℕ} :
    ∀ {l : List ℕ} {i : ℕ}, index_of x l = some i →
      l[i]? = some x ∧ ∀ j < i, l[j]? ≠ some x := by
  intro l
  induction l with
  | nil => intro i h; simp [index_of] at h
  | cons y t ih =>
    intro i h
    by_cases hxy : y = x
    · subst hxy
      simp only [index_of, eq_self_iff_true, if_true, Option.some.injEq] at h
      subst h
      exact ⟨by simp, by omega⟩
    · simp only [index_of, if_neg hxy, Option.map_eq_some'] at h
      obtain ⟨i0, hi0, rfl⟩ := h
      obtain ⟨hget, hfirst⟩ := ih hi0
      refine ⟨by simpa using hget, ?_⟩
      intro j hj
      cases j with
      | zero => simpa using hxy
      | succ j0 =>
        simpa using hfirst j0 (by omega)

theorem index_of_lt_length {x : ℕ} {l : List ℕ} {i : ℕ}
    (h : index_of x l = some i) : i < l.length :=
  List.getElem?_eq_some_iff.mp (index_of_some h).1 |>.1

/-- Value-level form of the rear-cog walking loop: walk the list of looked-up
values, emitting a step whenever the value changes. -/
def walkV (cf : ℕ) : List ℕ → ℕ → List Combo
  | [], _ => []
  | v :: rest, cur =>
    if v ≠ cur then record_step cf v :: walkV cf rest v
    else walkV cf rest cur

/-- When every index is in bounds, the index-level loop agrees with the
value-level loop on the looked-up values. -/
theorem walk_rears_eq_walkV (cf : ℕ) (cands : List ℕ) :
    ∀ (idxs : List ℕ) (cur : ℕ), (∀ i ∈ idxs, i < cands.length) →
      walk_rears cf cands idxs cur =
        walkV cf (idxs.map (fun i => cands.getD i 0)) cur := by
  intro idxs
  induction idxs with
  | nil => intro cur _; rfl
  | cons i rest ih =>
    intro cur h
    have hi : i < cands.length := h i (List.mem_cons_self _ _)
    have hget : cands[i]? = some (cands.getD i 0) := by
      rw [List.getElem?_eq_getElem hi, List.getD_eq_getElem _ _ hi]
    have hrest : ∀ j ∈ rest, j < cands.length :=
      fun j hj => h j (List.mem_cons_of_mem _ hj)
    by_cases hne : cands.getD i 0 ≠ cur
    · simp only [walk_rears, hget, if_pos hne, List.map_cons, walkV, ih _ hrest]
    · simp only [walk_rears, hget, if_neg hne, List.map_cons, walkV, ih _ hrest]

/-- Looking up a contiguous index range from zero yields a prefix. -/
theorem map_getD_range' (cands : List ℕ) :
    ∀ (n s : ℕ), s + n ≤ cands.length →
      (List.range' s n).map (fun i => cands.getD i 0) =
        (cands.drop s).take n := by
  intro n
  induction n with
  | zero => simp
  | succ n ih =>
    intro s h
    have hs : s < cands.length := by omega
    rw [List.range'_succ, List.map_cons, ih (s + 1) (by omega)]
    rw [List.getD_eq_getElem _ _ hs,
      List.drop_eq_getElem_cons hs, List.take_succ_cons]

theorem walkV_skip (cf : ℕ) (t : List ℕ) (cur : ℕ) :
    walkV cf (cur :: t) cur = walkV cf t cur := by
  simp [walkV]

/-- The body of `get_shift_sequence` past the successful search: the recorded
initial gear, then the front jump if needed. -/
def front_steps (g : ℕ × ℕ) (c : Combo) : List Combo :=
  if g.1 ≠ c.1 then [record_step g.1 g.2, record_step c.1 g.2]
  else [record_step g.1 g.2]

/-- The current front cog after the front jump. -/
def front_after (g : ℕ × ℕ) (c : Combo) : ℕ :=
  if g.1 ≠ c.1 then c.1 else g.1

/-- When the initial rear already equals the final rear, the sequence is just
the initial record plus the optional front jump. -/
theorem get_shift_sequence_no_traversal {d : Drivetrain} {t : ℚ} {g : ℕ × ℕ}
    {c : Combo} (hok : get_gear_combination d t = .ok c)
    (heq : g.2 = c.2.1) :
    get_shift_sequence d t g = .ok (front_steps g c) := by
  unfold get_shift_sequence front_steps
  rw [hok]
  simp only [Bind.bind, Except.bind, heq]
  simp [front_steps, heq]

/-- Master decomposition of a successful traversal on a constructed
drivetrain: the candidate list starts with the current rear at index 0, the
final rear sits at some index `fi ≥ 1`, the forward range is walked, and the
resulting sequence is the front steps followed by the value walk over the
window of candidates up to `fi`. -/
theorem get_shift_sequence_traversal (front rear : List ℕ) (t : ℚ)
    (g : ℕ × ℕ) {c : Combo}
    (hok : get_gear_combination (mkDrivetrain front rear) t = .ok c)
    (hr : g.2 ∈ (mkDrivetrain front rear).rear_cogs)
    (hne : g.2 ≠ c.2.1) :
    ∃ ct fi,
      candidate_rears (mkDrivetrain front rear) g.2 c.2.1 = g.2 :: ct ∧
      index_of c.2.1 (g.2 :: ct) = some fi ∧ 1 ≤ fi ∧ fi ≤ ct.length ∧
      get_shift_sequence (mkDrivetrain front rear) t g =
        .ok (front_steps g c ++ walkV (front_after g c) (ct.take fi) g.2) := by
  set d := mkDrivetrain front rear with hd
  have hsort : d.rear_cogs.Pairwise (· ≤ ·) :=
    List.sorted_insertionSort (· ≤ ·) rear
  have hhead : (candidate_rears d g.2 c.2.1).head? = some g.2 :=
    candidate_rears_head hsort hr
  rcases hcs : candidate_rears d g.2 c.2.1 with _ | ⟨h0, ct⟩
  · rw [hcs] at hhead; simp at hhead
  · rw [hcs] at hhead
    simp only [List.head?_cons, Option.some.injEq] at hhead
    subst hhead
    obtain ⟨cf0, cr, cq⟩ := c
    obtain ⟨hcf, hcr, -, -⟩ := get_gear_combination_ok_fields hok
    simp only at hne hcs ⊢
    have hfmem : cr ∈ candidate_rears d g.2 cr := mem_candidate_rears_final hcr hne
    rw [hcs] at hfmem
    obtain ⟨fi, hfi⟩ := index_of_exists_of_mem hfmem
    have hfi_get := index_of_some hfi
    have hfi1 : 1 ≤ fi := by
      rcases Nat.eq_zero_or_pos fi with rfl | h1
      · exact absurd (by simpa using hfi_get.1) hne
      · exact h1
    have hfilen : fi ≤ ct.length := by
      have := index_of_lt_length hfi
      simpa using Nat.lt_succ_iff.mp (by simpa using this)
    refine ⟨ct, fi, rfl, hfi, hfi1, hfilen, ?_⟩
    unfold get_shift_sequence
    rw [hok]
    simp only [Bind.bind, Except.bind]
    have hidx0 : index_of g.2 (g.2 :: ct) = some 0 := by simp [index_of]
    simp only [hne, ne_eq, not_false_eq_true, if_true, hcs, hidx0, hfi]
    have hrange : step_range 0 fi = List.range' 0 (fi + 1) := by
      simp [step_range]
    rw [hrange]
    have hbound : ∀ i ∈ List.range' 0 (fi + 1), i < (g.2 :: ct).length := by
      intro i hi
      have := List.mem_range'.mp hi
      simp only [List.length_cons]
      omega
    rw [walk_rears_eq_walkV _ _ _ _ hbound,
      map_getD_range' _ (fi + 1) 0 (by simp; omega)]
    simp only [List.drop_zero, List.take_succ_cons, walkV_skip]
    rfl

/-- C10: with distinct rear cogs, a member initial rear and a successful
search, the candidate rear list built for the traversal has the current rear
at index 0, both `list.index` lookups succeed, the final index dominates the
step index, and the range taken is the forward one (the backward branch is
never executed). -/
theorem candidate_list_forward_range (front rear : List ℕ) (t : ℚ)
    (g : ℕ × ℕ) (hrn : rear.Nodup) (hpos : ∀ x ∈ rear, 0 < x)
    (c : Combo)
    (hok : get_gear_combination (mkDrivetrain front rear) t = .ok c)
    (hr : g.2 ∈ (mkDrivetrain front rear).rear_cogs)
    (hne : g.2 ≠ c.2.1) :
    index_of g.2 (candidate_rears (mkDrivetrain front rear) g.2 c.2.1) =
      some 0 ∧
    ∃ fi, index_of c.2.1
        (candidate_rears (mkDrivetrain front rear) g.2 c.2.1) = some fi ∧
      0 ≤ fi ∧ step_range 0 fi = List.range' 0 (fi + 1) := by
  obtain ⟨ct, fi, hcs, hfi, -, -, -⟩ :=
    get_shift_sequence_traversal front rear t g hok hr hne
  rw [hcs]
  exact ⟨by simp [index_of], fi, hfi, Nat.zero_le _, by simp [step_range]⟩

/-- Witness for C10 at the example drivetrain, target 8/5, initial (38, 28). -/
theorem candidate_list_forward_range_witness :
    [16, 19, 23, 28].Nodup ∧ (∀ x ∈ [16, 19, 23, 28], 0 < x) ∧
    get_gear_combination (mkDrivetrain [30, 38] [16, 19, 23, 28]) (8/5) =
      .ok (30, 19, (30:ℚ)/19) ∧
    (28 ∈ (mkDrivetrain [30, 38] [16, 19, 23, 28]).rear_cogs) ∧ 28 ≠ 19 ∧
    (index_of 28 (candidate_rears (mkDrivetrain [30, 38] [16, 19, 23, 28])
        28 19) = some 0 ∧
      ∃ fi, index_of 19 (candidate_rears (mkDrivetrain [30, 38] [16, 19, 23, 28])
          28 19) = some fi ∧
        0 ≤ fi ∧ step_range 0 fi = List.range' 0 (fi + 1)) := by
  have hok : get_gear_combination (mkDrivetrain [30, 38] [16, 19, 23, 28])
      (8/5) = .ok (30, 19, (30:ℚ)/19) := by
    norm_num [get_gear_combination, valid_combinations, mkDrivetrain,
      gear_ratio, List.insertionSort, List.orderedInsert, ratio_desc]
  exact ⟨by decide, by decide, hok, by decide, by decide,
    candidate_list_forward_range [30, 38] [16, 19, 23, 28] (8/5) (38, 28)
      (by decide) (by decide) (30, 19, (30:ℚ)/19) hok (by decide) (by decide)⟩

theorem getLast?_take {α : Type} {l : List α} {n : ℕ} (hn : n ≠ 0)
    (hlen : n ≤ l.length) : (l.take n).getLast? = l[n - 1]? := by
  rw [List.getLast?_eq_getElem?, List.length_take]
  rw [Nat.min_eq_left hlen]
  exact List.getElem?_take_of_lt (by omega)

theorem mem_take_imp {α : Type} {l : List α} {n : ℕ} {x : α}
    (h : x ∈ l.take n) : ∃ j, j < n ∧ l[j]? = some x := by
  obtain ⟨j, hj⟩ := List.mem_iff_getElem?.mp h
  have hjn : j < (l.take n).length := (List.getElem?_eq_some_iff.mp hj).1
  rw [List.length_take] at hjn
  exact ⟨j, by omega, by rw [← List.getElem?_take_of_lt (by omega : j < n)]; exact hj⟩

theorem getLast?_cons_of_ne_nil {α : Type} {l : List α} (a : α)
    (h : l ≠ []) : (a :: l).getLast? = l.getLast? := by
  cases l with
  | nil => exact absurd rfl h
  | cons b t => exact List.getLast?_cons_cons

/-- Walking a value window whose last element is `fnl`, where no earlier
window element (nor the starting value) equals `fnl`, emits `fnl`'s step
last. -/
theorem walkV_getLast (cf : ℕ) :
    ∀ (vs : List ℕ) (cur fnl : ℕ), vs.getLast? = some fnl → cur ≠ fnl →
      (∀ v ∈ vs.dropLast, v ≠ fnl) →
      (walkV cf vs cur).getLast? = some (record_step cf fnl) := by
  intro vs
  induction vs with
  | nil => intro cur fnl h; simp at h
  | cons v rest ih =>
    intro cur fnl hlast hcur hdrop
    cases rest with
    | nil =>
      simp only [List.getLast?_singleton, Option.some.injEq] at hlast
      subst hlast
      simp [walkV, Ne.symm hcur, hcur]
    | cons w rest2 =>
      have hlast2 : (w :: rest2).getLast? = some fnl := by
        simpa [List.getLast?_cons_cons] using hlast
      have hvne : v ≠ fnl := hdrop v (by simp [List.dropLast_cons₂])
      have hdrop2 : ∀ u ∈ (w :: rest2).dropLast, u ≠ fnl := by
        intro u hu
        exact hdrop u (by simp [List.dropLast_cons₂, hu])
      have htail := ih v fnl hlast2 hvne hdrop2
      have htail2 := ih cur fnl hlast2 hcur hdrop2
      by_cases hvc : v ≠ cur
      · rw [walkV, if_pos hvc]
        have hne2 : walkV cf (w :: rest2) v ≠ [] := by
          intro h0; rw [h0] at htail; simp at htail
        rw [getLast?_cons_of_ne_nil _ hne2]
        exact htail
      · rw [walkV, if_neg hvc]
        push_neg at hvc
        subst hvc
        exact htail2

/-- C4: on a successful search with a valid initial gear, the shift sequence
exists, is nonempty, starts at the initial combination, and ends at the
searched combination, whose ratio is within the target. -/
theorem shift_sequence_endpoints (front rear : List ℕ) (t : ℚ) (g : ℕ × ℕ)
    (hpos : ∀ x ∈ rear, 0 < x)
    (hfmem : g.1 ∈ (mkDrivetrain front rear).front_cogs)
    (hrmem : g.2 ∈ (mkDrivetrain front rear).rear_cogs)
    (c : Combo)
    (hok : get_gear_combination (mkDrivetrain front rear) t = .ok c) :
    ∃ seq, get_shift_sequence (mkDrivetrain front rear) t g = .ok seq ∧
      seq ≠ [] ∧ seq.head? = some (g.1, g.2, gear_ratio g.1 g.2) ∧
      ∃ lst, seq.getLast? = some lst ∧
        lst.1 = c.1 ∧ lst.2.1 = c.2.1 ∧ lst.2.2 ≤ t := by
  obtain ⟨cf0, cr, cq⟩ := c
  obtain ⟨hcf, hcr, hcq, hct⟩ := get_gear_combination_ok_fields hok
  simp only at hcf hcr hcq hct ⊢
  have hfs_ne : front_steps g (cf0, cr, cq) ≠ [] := by
    unfold front_steps; split <;> simp
  have hfs_head : (front_steps g (cf0, cr, cq)).head? =
      some (g.1, g.2, gear_ratio g.1 g.2) := by
    unfold front_steps record_step; split <;> simp
  by_cases heq : g.2 = cr
  · refine ⟨front_steps g (cf0, cr, cq),
      get_shift_sequence_no_traversal hok heq, hfs_ne, hfs_head, ?_⟩
    unfold front_steps record_step
    by_cases hf : g.1 ≠ cf0
    · refine ⟨(cf0, g.2, gear_ratio cf0 g.2), ?_, rfl, heq, ?_⟩
      · simp [hf]
      · rw [heq, ← hcq]; exact hct
    · push_neg at hf
      refine ⟨(g.1, g.2, gear_ratio g.1 g.2), ?_, hf, heq, ?_⟩
      · simp [hf]
      · rw [heq, hf, ← hcq]; exact hct
  · obtain ⟨ct, fi, hcs, hfi, hfi1, hfilen, hseq⟩ :=
      get_shift_sequence_traversal front rear t g hok hrmem heq
    simp only at hcs hfi hseq
    have hfi_get := index_of_some hfi
    have hwin_last : (ct.take fi).getLast? = some cr := by
      rw [getLast?_take (by omega) hfilen]
      have : (g.2 :: ct)[fi]? = some cr := hfi_get.1
      rcases fi with _ | fi0
      · omega
      · simpa using this
    have hwin_drop : ∀ v ∈ (ct.take fi).dropLast, v ≠ cr := by
      intro v hv
      rw [List.dropLast_eq_take, List.length_take, List.take_take] at hv
      obtain ⟨j, hj, hjv⟩ := mem_take_imp hv
      have hjfi : j + 1 < fi := by
        rw [Nat.min_eq_left hfilen] at hj
        omega
      have := hfi_get.2 (j + 1) (by omega)
      intro hveq
      apply this
      simpa [hveq] using hjv
    have hwalk_last : (walkV (front_after g (cf0, cr, cq)) (ct.take fi)
        g.2).getLast? = some (record_step (front_after g (cf0, cr, cq)) cr) :=
      walkV_getLast _ _ _ _ hwin_last heq hwin_drop
    have hwalk_ne : walkV (front_after g (cf0, cr, cq)) (ct.take fi) g.2 ≠ [] := by
      intro h0; rw [h0] at hwalk_last; simp at hwalk_last
    refine ⟨_, hseq, by simp [hfs_ne], ?_, ?_⟩
    · rw [List.head?_append_of_ne_nil _ hfs_ne]
      exact hfs_head
    · refine ⟨record_step (front_after g (cf0, cr, cq)) cr, ?_, ?_, rfl, ?_⟩
      · rw [List.getLast?_append_of_ne_nil _ hwalk_ne]
        exact hwalk_last
      · unfold front_after
        split
        · rfl
        · next hf => exact not_ne_iff.mp hf
      · unfold front_after record_step
        split
        · rw [← hcq]; exact hct
        · next hf =>
          push_neg at hf
          rw [hf, ← hcq]; exact hct

/-- Witness for C4 at the example drivetrain, target 8/5, initial (38, 28). -/
theorem shift_sequence_endpoints_witness :
    (∀ x ∈ [16, 19, 23, 28], 0 < x) ∧
    (38 ∈ (mkDrivetrain [30, 38] [16, 19, 23, 28]).front_cogs) ∧
    (28 ∈ (mkDrivetrain [30, 38] [16, 19, 23, 28]).rear_cogs) ∧
    get_gear_combination (mkDrivetrain [30, 38] [16, 19, 23, 28]) (8/5) =
      .ok (30, 19, (30:ℚ)/19) ∧
    (∃ seq, get_shift_sequence (mkDrivetrain [30, 38] [16, 19, 23, 28]) (8/5)
        (38, 28) = .ok seq ∧
      seq ≠ [] ∧ seq.head? = some (38, 28, gear_ratio 38 28) ∧
      ∃ lst, seq.getLast? = some lst ∧
        lst.1 = 30 ∧ lst.2.1 = 19 ∧ lst.2.2 ≤ 8/5) := by
  have hok : get_gear_combination (mkDrivetrain [30, 38] [16, 19, 23, 28])
      (8/5) = .ok (30, 19, (30:ℚ)/19) := by
    norm_num [get_gear_combination, valid_combinations, mkDrivetrain,
      gear_ratio, List.insertionSort, List.orderedInsert, ratio_desc]
  exact ⟨by decide, by decide, by decide, hok,
    shift_sequence_endpoints [30, 38] [16, 19, 23, 28] (8/5) (38, 28)
      (by decide) (by decide) (by decide) (30, 19, (30:ℚ)/19) hok⟩

theorem shift_ok_implies_search_ok {d : Drivetrain} {t : ℚ} {g : ℕ × ℕ}
    {seq : List Combo} (h : get_shift_sequence d t g = .ok seq) :
    ∃ c, get_gear_combination d t = .ok c := by
  rcases hok : get_gear_combination d t with e | c
  · rw [get_shift_sequence, hok] at h
    simp [Bind.bind, Except.bind] at h
  · exact ⟨c, rfl⟩

theorem nodup_candidate_rears {d : Drivetrain} {cur fnl : ℕ}
    (h : d.rear_cogs.Nodup) : (candidate_rears d cur fnl).Nodup := by
  unfold candidate_rears
  split
  · exact h.filter _
  · exact (List.nodup_reverse.mpr h).filter _

/-- Walking a window of pairwise-adjacent-distinct values starting at `cur`
emits one step per value. -/
theorem walkV_of_chain (cf : ℕ) :
    ∀ (vs : List ℕ) (cur : ℕ), (cur :: vs).Chain' (· ≠ ·) →
      walkV cf vs cur = vs.map (record_step cf) := by
  intro vs
  induction vs with
  | nil => intro cur _; rfl
  | cons v rest ih =>
    intro cur hch
    rw [List.chain'_cons] at hch
    rw [walkV, if_pos (Ne.symm hch.1), List.map_cons, ih v hch.2]

theorem front_steps_getLast :
    ∀ (g : ℕ × ℕ) (c : Combo), (front_steps g c).getLast? =
      some (record_step (front_after g c) g.2) := by
  intro g c
  unfold front_steps front_after
  split <;> simp

/-- C3: with distinct cogs, every two consecutive elements of a returned
shift sequence differ in exactly one of front and rear, and every element's
cogs are members of the configured lists. -/
theorem shift_sequence_single_shifts (front rear : List ℕ) (t : ℚ)
    (g : ℕ × ℕ) (hfn : front.Nodup) (hrn : rear.Nodup)
    (hpos : ∀ x ∈ rear, 0 < x)
    (hfmem : g.1 ∈ (mkDrivetrain front rear).front_cogs)
    (hrmem : g.2 ∈ (mkDrivetrain front rear).rear_cogs)
    (seq : List Combo)
    (hseq : get_shift_sequence (mkDrivetrain front rear) t g = .ok seq) :
    seq.Chain' (fun a b => (a.1 = b.1 ∧ a.2.1 ≠ b.2.1) ∨
      (a.1 ≠ b.1 ∧ a.2.1 = b.2.1)) ∧
    ∀ s ∈ seq, s.1 ∈ (mkDrivetrain front rear).front_cogs ∧
      s.2.1 ∈ (mkDrivetrain front rear).rear_cogs := by
  obtain ⟨c, hok⟩ := shift_ok_implies_search_ok hseq
  obtain ⟨cf0, cr, cq⟩ := c
  obtain ⟨hcf, hcr, -, -⟩ := get_gear_combination_ok_fields hok
  have hfs_chain : (front_steps g (cf0, cr, cq)).Chain'
      (fun a b : Combo => (a.1 = b.1 ∧ a.2.1 ≠ b.2.1) ∨
        (a.1 ≠ b.1 ∧ a.2.1 = b.2.1)) := by
    unfold front_steps record_step
    split
    · next hf => exact List.chain'_cons.mpr ⟨Or.inr ⟨hf, rfl⟩, List.chain'_singleton _⟩
    · exact List.chain'_singleton _
  have hfs_mem : ∀ s ∈ front_steps g (cf0, cr, cq),
      s.1 ∈ (mkDrivetrain front rear).front_cogs ∧
        s.2.1 ∈ (mkDrivetrain front rear).rear_cogs := by
    unfold front_steps record_step
    intro s hs
    split at hs
    · rcases List.mem_cons.mp hs with rfl | hs2
      · exact ⟨hfmem, hrmem⟩
      · rcases List.mem_cons.mp hs2 with rfl | hs3
        · exact ⟨hcf, hrmem⟩
        · simp at hs3
    · rcases List.mem_cons.mp hs with rfl | hs2
      · exact ⟨hfmem, hrmem⟩
      · simp at hs2
  by_cases heq : g.2 = cr
  · have := get_shift_sequence_no_traversal hok heq
    rw [hseq] at this
    obtain rfl : seq = front_steps g (cf0, cr, cq) := by
      simpa using this
    exact ⟨hfs_chain, hfs_mem⟩
  · obtain ⟨ct, fi, hcs, hfi, hfi1, hfilen, hseq2⟩ :=
      get_shift_sequence_traversal front rear t g hok hrmem heq
    simp only at hcs hfi hseq2
    rw [hseq] at hseq2
    have hcands_nodup : (g.2 :: ct).Nodup := by
      rw [← hcs]
      exact nodup_candidate_rears
        (((List.perm_insertionSort (· ≤ ·) rear).nodup_iff).mpr hrn)
    have hwin_nodup : (g.2 :: ct.take fi).Nodup :=
      List.Sublist.nodup (List.Sublist.cons₂ _ (List.take_sublist _ _)) hcands_nodup
    have hwin_chain : (g.2 :: ct.take fi).Chain' (· ≠ ·) :=
      hwin_nodup.chain'
    obtain rfl : seq = front_steps g (cf0, cr, cq) ++
        (ct.take fi).map (record_step (front_after g (cf0, cr, cq))) := by
      have := hseq2.symm
      simp only [Except.ok.injEq] at this
      rw [← this, walkV_of_chain _ _ _ hwin_chain]
    constructor
    · rw [List.chain'_append]
      refine ⟨hfs_chain, ?_, ?_⟩
      · rw [List.chain'_map]
        refine List.Chain'.imp ?_ ((List.chain'_cons'.mp hwin_chain).2)
        intro a b hab
        exact Or.inl ⟨rfl, by simpa [record_step] using hab⟩
      · intro x hx y hy
        rw [front_steps_getLast] at hx
        simp only [Option.mem_def, Option.some.injEq] at hx
        subst hx
        rcases hhd : (ct.take fi).head? with _ | v0
        · rw [List.head?_map, hhd] at hy; simp at hy
        · rw [List.head?_map, hhd] at hy
          simp only [Option.mem_def, Option.map_some', Option.some.injEq] at hy
          subst hy
          have hne0 : g.2 ≠ v0 :=
            (List.chain'_cons'.mp hwin_chain).1 v0 hhd
          exact Or.inl ⟨rfl, by simpa [record_step] using hne0⟩
    · intro s hs
      rcases List.mem_append.mp hs with hs1 | hs2
      · exact hfs_mem s hs1
      · obtain ⟨v, hv, rfl⟩ := List.mem_map.mp hs2
        have hvmem : v ∈ g.2 :: ct := List.mem_cons_of_mem _ (List.mem_of_mem_take hv)
        rw [← hcs] at hvmem
        refine ⟨?_, mem_of_mem_candidate_rears hvmem⟩
        unfold front_after record_step
        split
        · exact hcf
        · next hf => exact hfmem

/-- Two values sit at consecutive positions of a list, in this order. -/
def adjacent_in (l : List ℕ) (x y : ℕ) : Prop :=
  ∃ k, l[k]? = some x ∧ l[k + 1]? = some y

/-- Filtering a sorted list by an upward-closed predicate yields a suffix. -/
theorem filter_suffix_of_sorted (R : ℕ → ℕ → Prop) (p : ℕ → Bool)
    (hcl : ∀ a b, R a b → p a = true → p b = true) :
    ∀ {l : List ℕ}, l.Pairwise R → (l.filter p) <:+ l := by
  intro l
  induction l with
  | nil => intro _; exact List.suffix_refl _
  | cons y t ih =>
    intro hp
    obtain ⟨hy, ht⟩ := List.pairwise_cons.mp hp
    by_cases hpy : p y = true
    · have hall : ∀ x ∈ t, p x = true := fun x hx => hcl y x (hy x hx) hpy
      rw [List.filter_cons, if_pos hpy, List.filter_eq_self.mpr hall]
    · rw [List.filter_cons, if_neg hpy]
      exact (ih ht).trans (List.suffix_cons y t)

theorem adjacent_of_suffix {cands l : List ℕ} (hsuf : cands <:+ l)
    (k : ℕ) {x y : ℕ} (hx : cands[k]? = some x) (hy : cands[k + 1]? = some y) :
    adjacent_in l x y := by
  obtain ⟨pre, rfl⟩ := hsuf
  refine ⟨pre.length + k, ?_, ?_⟩
  · rw [List.getElem?_append_right (by omega)]
    simpa using hx
  · rw [List.getElem?_append_right (by omega)]
    have harith : pre.length + k + 1 - pre.length = k + 1 := by omega
    rw [harith]
    exact hy

theorem adjacent_of_suffix_reverse {cands l : List ℕ}
    (hsuf : cands <:+ l.reverse) (k : ℕ) {x y : ℕ}
    (hx : cands[k]? = some x) (hy : cands[k + 1]? = some y) :
    adjacent_in l y x := by
  obtain ⟨pre, hpre⟩ := hsuf
  have hxr : l.reverse[pre.length + k]? = some x := by
    rw [← hpre, List.getElem?_append_right (by omega)]
    simpa using hx
  have hyr : l.reverse[pre.length + k + 1]? = some y := by
    rw [← hpre, List.getElem?_append_right (by omega)]
    have harith : pre.length + k + 1 - pre.length = k + 1 := by omega
    rw [harith]
    exact hy
  have hky : pre.length + k + 1 < l.length := by
    have := (List.getElem?_eq_some_iff.mp hyr).1
    simpa using this
  have hkx : pre.length + k < l.length := by omega
  rw [List.getElem?_reverse (by simpa using hkx)] at hxr
  rw [List.getElem?_reverse (by simpa using hky)] at hyr
  refine ⟨l.length - 1 - (pre.length + k + 1), by simpa using hyr, ?_⟩
  have harith2 : l.length - 1 - (pre.length + k + 1) + 1 =
      l.length - 1 - (pre.length + k) := by omega
  rw [harith2]
  simpa using hxr

theorem adjacent_in_lt {l : List ℕ} (hps : l.Pairwise (· < ·)) {x y : ℕ}
    (h : adjacent_in l x y) : x < y := by
  obtain ⟨k, hx, hy⟩ := h
  obtain ⟨hk, hxe⟩ := List.getElem?_eq_some_iff.mp hx
  obtain ⟨hk1, hye⟩ := List.getElem?_eq_some_iff.mp hy
  have := List.pairwise_iff_getElem.mp hps k (k + 1) hk hk1 (by omega)
  rwa [hxe, hye] at this

/-- Ascending traversal: consecutive candidate rears are adjacent in the
stored (ascending sorted) rear cog list. -/
theorem chain_adjacent_candidates_asc (front rear : List ℕ) (cur fnl : ℕ)
    (hlt : cur < fnl) :
    (candidate_rears (mkDrivetrain front rear) cur fnl).Chain'
      (adjacent_in (mkDrivetrain front rear).rear_cogs) := by
  have hsorted : (mkDrivetrain front rear).rear_cogs.Pairwise (· ≤ ·) :=
    List.sorted_insertionSort (· ≤ ·) rear
  have hsuf : ((mkDrivetrain front rear).rear_cogs.filter
      (fun x => decide (cur ≤ x))) <:+ (mkDrivetrain front rear).rear_cogs :=
    filter_suffix_of_sorted (· ≤ ·) _
      (fun a b hab ha => by
        simp only [decide_eq_true_eq] at *
        omega) hsorted
  rw [candidate_rears, if_pos hlt]
  rw [List.chain'_iff_get]
  intro i hi
  set cands := (mkDrivetrain front rear).rear_cogs.filter
    (fun x => decide (cur ≤ x)) with hcands
  refine adjacent_of_suffix hsuf i ?_ ?_
  · rw [List.getElem?_eq_getElem (by omega), List.get_eq_getElem]
  · rw [List.getElem?_eq_getElem (by omega), List.get_eq_getElem]

/-- Descending traversal: consecutive candidate rears are adjacent, in
reversed order, in the stored rear cog list. -/
theorem chain_adjacent_candidates_desc (front rear : List ℕ) (cur fnl : ℕ)
    (hge : ¬ fnl > cur) :
    (candidate_rears (mkDrivetrain front rear) cur fnl).Chain'
      (fun x y => adjacent_in (mkDrivetrain front rear).rear_cogs y x) := by
  have hsorted : (mkDrivetrain front rear).rear_cogs.Pairwise (· ≤ ·) :=
    List.sorted_insertionSort (· ≤ ·) rear
  have hsufr : ((mkDrivetrain front rear).rear_cogs.reverse.filter
      (fun x => decide (x ≤ cur))) <:+
        (mkDrivetrain front rear).rear_cogs.reverse :=
    filter_suffix_of_sorted (fun a b => b ≤ a) _
      (fun a b hab ha => by
        simp only [decide_eq_true_eq] at *
        omega) (List.pairwise_reverse.mpr hsorted)
  rw [candidate_rears, if_neg hge]
  rw [List.chain'_iff_get]
  intro i hi
  refine adjacent_of_suffix_reverse hsufr i ?_ ?_
  · rw [List.getElem?_eq_getElem (by omega), List.get_eq_getElem]
  · rw [List.getElem?_eq_getElem (by omega), List.get_eq_getElem]

/-- Assembly: a chain property of the candidate window lifts to the whole
shift sequence, with rear-preserving steps allowed everywhere. -/
theorem chain_seq_of_chain_window (g : ℕ × ℕ) (c : Combo) (vs : List ℕ)
    (P : Combo → Combo → Prop) (Q : ℕ → ℕ → Prop)
    (hrefl : ∀ a b : Combo, a.2.1 = b.2.1 → P a b)
    (hQ : ∀ x y cf, Q x y → P (record_step cf x) (record_step cf y))
    (hwin : (g.2 :: vs).Chain' Q) :
    (front_steps g c ++ vs.map (record_step (front_after g c))).Chain' P := by
  rw [List.chain'_append]
  refine ⟨?_, ?_, ?_⟩
  · unfold front_steps
    split
    · exact List.chain'_cons.mpr ⟨hrefl _ _ rfl, List.chain'_singleton _⟩
    · exact List.chain'_singleton _
  · rw [List.chain'_map]
    exact ((List.chain'_cons'.mp hwin).2).imp (fun a b hab => hQ a b _ hab)
  · intro x hx y hy
    rw [front_steps_getLast] at hx
    simp only [Option.mem_def, Option.some.injEq] at hx
    subst hx
    rcases hhd : vs.head? with _ | v0
    · rw [List.head?_map, hhd] at hy; simp at hy
    · rw [List.head?_map, hhd] at hy
      simp only [Option.mem_def, Option.map_some', Option.some.injEq] at hy
      subst hy
      exact hQ _ _ _ ((List.chain'_cons'.mp hwin).1 v0 hhd)

/-- C6: with distinct rear cogs and a valid initial gear, whenever two
consecutive elements of a returned shift sequence differ in rear, their rear
values are adjacent in the stored ascending rear cog list, and the rear
values move strictly monotonically in the direction from the initial rear to
the final rear. -/
theorem shift_sequence_rear_adjacent (front rear : List ℕ) (t : ℚ)
    (g : ℕ × ℕ) (hrn : rear.Nodup) (hpos : ∀ x ∈ rear, 0 < x)
    (hfmem : g.1 ∈ (mkDrivetrain front rear).front_cogs)
    (hrmem : g.2 ∈ (mkDrivetrain front rear).rear_cogs)
    (c : Combo)
    (hok : get_gear_combination (mkDrivetrain front rear) t = .ok c)
    (seq : List Combo)
    (hseq : get_shift_sequence (mkDrivetrain front rear) t g = .ok seq) :
    (g.2 < c.2.1 → seq.Chain' (fun a b => a.2.1 = b.2.1 ∨
      (adjacent_in (mkDrivetrain front rear).rear_cogs a.2.1 b.2.1 ∧
        a.2.1 < b.2.1))) ∧
    (c.2.1 < g.2 → seq.Chain' (fun a b => a.2.1 = b.2.1 ∨
      (adjacent_in (mkDrivetrain front rear).rear_cogs b.2.1 a.2.1 ∧
        b.2.1 < a.2.1))) := by
  obtain ⟨cf0, cr, cq⟩ := c
  have hplt : (mkDrivetrain front rear).rear_cogs.Pairwise (· < ·) :=
    List.Sorted.lt_of_le (List.sorted_insertionSort (· ≤ ·) rear)
      (((List.perm_insertionSort (· ≤ ·) rear).nodup_iff).mpr hrn)
  constructor
  · intro hdir
    have hne : g.2 ≠ (cf0, cr, cq).2.1 := by simp only at hdir ⊢; omega
    obtain ⟨ct, fi, hcs, hfi, hfi1, hfilen, hseq2⟩ :=
      get_shift_sequence_traversal front rear t g hok hrmem hne
    rw [hseq] at hseq2
    have hchain := (chain_adjacent_candidates_asc front rear
      g.2 cr (by simpa using hdir)).take (fi + 1)
    rw [hcs, List.take_succ_cons] at hchain
    obtain rfl : seq = front_steps g (cf0, cr, cq) ++
        (ct.take fi).map (record_step (front_after g (cf0, cr, cq))) := by
      have hw := hseq2.symm
      simp only [Except.ok.injEq] at hw
      have hcands_nodup : (g.2 :: ct).Nodup := by
        rw [← hcs]
        exact nodup_candidate_rears
          (((List.perm_insertionSort (· ≤ ·) rear).nodup_iff).mpr hrn)
      have hwin_chain : (g.2 :: ct.take fi).Chain' (· ≠ ·) :=
        (List.Sublist.nodup (List.Sublist.cons₂ _ (List.take_sublist _ _))
          hcands_nodup).chain'
      rw [← hw, walkV_of_chain _ _ _ hwin_chain]
    refine chain_seq_of_chain_window g (cf0, cr, cq) (ct.take fi) _
      (adjacent_in (mkDrivetrain front rear).rear_cogs)
      (fun a b h => Or.inl h) ?_ hchain
    intro x y cf hq
    exact Or.inr ⟨by simpa [record_step] using hq,
      by simpa [record_step] using adjacent_in_lt hplt hq⟩
  · intro hdir
    have hne : g.2 ≠ (cf0, cr, cq).2.1 := by simp only at hdir ⊢; omega
    obtain ⟨ct, fi, hcs, hfi, hfi1, hfilen, hseq2⟩ :=
      get_shift_sequence_traversal front rear t g hok hrmem hne
    rw [hseq] at hseq2
    have hchain := (chain_adjacent_candidates_desc front rear
      g.2 cr (by simp only at hdir ⊢; omega)).take (fi + 1)
    rw [hcs, List.take_succ_cons] at hchain
    obtain rfl : seq = front_steps g (cf0, cr, cq) ++
        (ct.take fi).map (record_step (front_after g (cf0, cr, cq))) := by
      have hw := hseq2.symm
      simp only [Except.ok.injEq] at hw
      have hcands_nodup : (g.2 :: ct).Nodup := by
        rw [← hcs]
        exact nodup_candidate_rears
          (((List.perm_insertionSort (· ≤ ·) rear).nodup_iff).mpr hrn)
      have hwin_chain : (g.2 :: ct.take fi).Chain' (· ≠ ·) :=
        (List.Sublist.nodup (List.Sublist.cons₂ _ (List.take_sublist _ _))
          hcands_nodup).chain'
      rw [← hw, walkV_of_chain _ _ _ hwin_chain]
    refine chain_seq_of_chain_window g (cf0, cr, cq) (ct.take fi) _
      (fun x y => adjacent_in (mkDrivetrain front rear).rear_cogs y x)
      (fun a b h => Or.inl h) ?_ hchain
    intro x y cf hq
    exact Or.inr ⟨by simpa [record_step] using hq,
      by simpa [record_step] using adjacent_in_lt hplt hq⟩

/-- Counterexample to C2: on the example drivetrain, an initial front cog of
40 is not a configured front cog, yet `get_shift_sequence` with target 3/2
and initial gear (40, 28) raises nothing and returns a sequence — there is
no membership check on the initial gear at the start of shift planning. -/
theorem no_initial_gear_check_counterexample :
    40 ∉ (mkDrivetrain [30, 38] [16, 19, 23, 28]).front_cogs ∧
    get_shift_sequence (mkDrivetrain [30, 38] [16, 19, 23, 28]) (3/2)
        (40, 28) = .ok [(40, 28, (10:ℚ)/7), (38, 28, (19:ℚ)/14)] := by
  constructor
  · decide
  · norm_num [get_shift_sequence, get_gear_combination, valid_combinations,
      mkDrivetrain, gear_ratio, List.insertionSort, List.orderedInsert,
      ratio_desc, record_step, candidate_rears, index_of, walk_rears,
      step_range, Bind.bind, Except.instMonad, Except.bind]

/-- C2 amended: the code performs no up-front membership check.  When the
initial rear cog is not a configured rear cog and the combination search
succeeds, the `list.index` lookup during the rear traversal fails, so
`get_shift_sequence` raises the generic `ValueError`; this happens after the
search, and an invalid initial front cog alone raises nothing (see the
counterexample). -/
theorem invalid_initial_rear_value_error (d : Drivetrain) (t : ℚ) (g : ℕ × ℕ)
    (c : Combo) (hok : get_gear_combination d t = .ok c)
    (hrnot : g.2 ∉ d.rear_cogs) :
    get_shift_sequence d t g = .error .valueError := by
  obtain ⟨cf, cr, cq⟩ := c
  obtain ⟨-, hcr, -, -⟩ := get_gear_combination_ok_fields hok
  have hne : g.2 ≠ cr := fun h => hrnot (h ▸ hcr)
  have hidx : index_of g.2 (candidate_rears d g.2 cr) = none :=
    index_of_eq_none_iff.mpr (fun hmem => hrnot (mem_of_mem_candidate_rears hmem))
  simp [get_shift_sequence, hok, Bind.bind, Except.bind, hne, hidx]

/-- Witness for the amended C2: initial gear (38, 30) has rear cog 30, which
is not configured; the search succeeds and the call fails with `ValueError`. -/
theorem invalid_initial_rear_value_error_witness :
    get_gear_combination (mkDrivetrain [30, 38] [16, 19, 23, 28]) (3/2) =
      .ok (38, 28, (19:ℚ)/14) ∧
    (30 ∉ (mkDrivetrain [30, 38] [16, 19, 23, 28]).rear_cogs) ∧
    get_shift_sequence (mkDrivetrain [30, 38] [16, 19, 23, 28]) (3/2)
        (38, 30) = .error .valueError := by
  have hok : get_gear_combination (mkDrivetrain [30, 38] [16, 19, 23, 28])
      (3/2) = .ok (38, 28, (19:ℚ)/14) := by
    norm_num [get_gear_combination, valid_combinations, mkDrivetrain,
      gear_ratio, List.insertionSort, List.orderedInsert, ratio_desc]
  exact ⟨hok, by decide,
    invalid_initial_rear_value_error _ _ (38, 30) _ hok (by decide)⟩

/-- Witness for C8 at the example drivetrain with unachievable target 3/10. -/
theorem shift_sequence_propagates_error_witness :
    get_gear_combination (mkDrivetrain [30, 38] [16, 19, 23, 28]) (3/10) =
      .error .gearRatioNotFound ∧
    get_shift_sequence (mkDrivetrain [30, 38] [16, 19, 23, 28]) (3/10)
        (38, 28) = .error .gearRatioNotFound ∧
      ∀ l, get_shift_sequence (mkDrivetrain [30, 38] [16, 19, 23, 28]) (3/10)
        (38, 28) ≠ .ok l :=
  ⟨by norm_num [get_gear_combination, valid_combinations, mkDrivetrain,
      gear_ratio, List.insertionSort, List.orderedInsert, ratio_desc],
    shift_sequence_propagates_error _ _ (38, 28) _
      (by norm_num [get_gear_combination, valid_combinations, mkDrivetrain,
        gear_ratio, List.insertionSort, List.orderedInsert, ratio_desc])⟩

/-- Witness for C3 at the example drivetrain, target 8/5, initial (38, 28):
the concrete returned sequence satisfies the single-shift invariant. -/
theorem shift_sequence_single_shifts_witness :
    [30, 38].Nodup ∧ [16, 19, 23, 28].Nodup ∧ (∀ x ∈ [16, 19, 23, 28], 0 < x) ∧
    (38 ∈ (mkDrivetrain [30, 38] [16, 19, 23, 28]).front_cogs) ∧
    (28 ∈ (mkDrivetrain [30, 38] [16, 19, 23, 28]).rear_cogs) ∧
    get_shift_sequence (mkDrivetrain [30, 38] [16, 19, 23, 28]) (8/5)
        (38, 28) = .ok [(38, 28, (19:ℚ)/14), (30, 28, (15:ℚ)/14),
          (30, 23, (30:ℚ)/23), (30, 19, (30:ℚ)/19)] ∧
    (List.Chain' (fun a b : Combo => (a.1 = b.1 ∧ a.2.1 ≠ b.2.1) ∨
        (a.1 ≠ b.1 ∧ a.2.1 = b.2.1))
      [(38, 28, (19:ℚ)/14), (30, 28, (15:ℚ)/14),
        (30, 23, (30:ℚ)/23), (30, 19, (30:ℚ)/19)] ∧
    ∀ s ∈ ([(38, 28, (19:ℚ)/14), (30, 28, (15:ℚ)/14),
        (30, 23, (30:ℚ)/23), (30, 19, (30:ℚ)/19)] : List Combo),
      s.1 ∈ (mkDrivetrain [30, 38] [16, 19, 23, 28]).front_cogs ∧
        s.2.1 ∈ (mkDrivetrain [30, 38] [16, 19, 23, 28]).rear_cogs) := by
  have hseq : get_shift_sequence (mkDrivetrain [30, 38] [16, 19, 23, 28])
      (8/5) (38, 28) = .ok [(38, 28, (19:ℚ)/14), (30, 28, (15:ℚ)/14),
        (30, 23, (30:ℚ)/23), (30, 19, (30:ℚ)/19)] := by
    norm_num [get_shift_sequence, get_gear_combination, valid_combinations,
      mkDrivetrain, gear_ratio, List.insertionSort, List.orderedInsert,
      ratio_desc, record_step, candidate_rears, index_of, walk_rears,
      step_range, Bind.bind, Except.instMonad, Except.bind, List.range']
  exact ⟨by decide, by decide, by decide, by decide, by decide, hseq,
    shift_sequence_single_shifts [30, 38] [16, 19, 23, 28] (8/5) (38, 28)
      (by decide) (by decide) (by decide) (by decide) (by decide) _ hseq⟩

/-- Witness for C6 at the example drivetrain, target 8/5, initial (38, 28):
the traversal descends 28, 23, 19, pairwise adjacent in the sorted rear
list. -/
theorem shift_sequence_rear_adjacent_witness :
    [16, 19, 23, 28].Nodup ∧ (∀ x ∈ [16, 19, 23, 28], 0 < x) ∧
    (38 ∈ (mkDrivetrain [30, 38] [16, 19, 23, 28]).front_cogs) ∧
    (28 ∈ (mkDrivetrain [30, 38] [16, 19, 23, 28]).rear_cogs) ∧
    get_gear_combination (mkDrivetrain [30, 38] [16, 19, 23, 28]) (8/5) =
      .ok (30, 19, (30:ℚ)/19) ∧
    get_shift_sequence (mkDrivetrain [30, 38] [16, 19, 23, 28]) (8/5)
        (38, 28) = .ok [(38, 28, (19:ℚ)/14), (30, 28, (15:ℚ)/14),
          (30, 23, (30:ℚ)/23), (30, 19, (30:ℚ)/19)] ∧
    ((28 < 19 → List.Chain' (fun a b : Combo => a.2.1 = b.2.1 ∨
        (adjacent_in (mkDrivetrain [30, 38] [16, 19, 23, 28]).rear_cogs
          a.2.1 b.2.1 ∧ a.2.1 < b.2.1))
        [(38, 28, (19:ℚ)/14), (30, 28, (15:ℚ)/14),
          (30, 23, (30:ℚ)/23), (30, 19, (30:ℚ)/19)]) ∧
    (19 < 28 → List.Chain' (fun a b : Combo => a.2.1 = b.2.1 ∨
        (adjacent_in (mkDrivetrain [30, 38] [16, 19, 23, 28]).rear_cogs
          b.2.1 a.2.1 ∧ b.2.1 < a.2.1))
        [(38, 28, (19:ℚ)/14), (30, 28, (15:ℚ)/14),
          (30, 23, (30:ℚ)/23), (30, 19, (30:ℚ)/19)])) := by
  have hok : get_gear_combination (mkDrivetrain [30, 38] [16, 19, 23, 28])
      (8/5) = .ok (30, 19, (30:ℚ)/19) := by
    norm_num [get_gear_combination, valid_combinations, mkDrivetrain,
      gear_ratio, List.insertionSort, List.orderedInsert, ratio_desc]
  have hseq : get_shift_sequence (mkDrivetrain [30, 38] [16, 19, 23, 28])
      (8/5) (38, 28) = .ok [(38, 28, (19:ℚ)/14), (30, 28, (15:ℚ)/14),
        (30, 23, (30:ℚ)/23), (30, 19, (30:ℚ)/19)] := by
    norm_num [get_shift_sequence, get_gear_combination, valid_combinations,
      mkDrivetrain, gear_ratio, List.insertionSort, List.orderedInsert,
      ratio_desc, record_step, candidate_rears, index_of, walk_rears,
      step_range, Bind.bind, Except.instMonad, Except.bind, List.range']
  exact ⟨by decide, by decide, by decide, by decide, hok, hseq,
    shift_sequence_rear_adjacent [30, 38] [16, 19, 23, 28] (8/5) (38, 28)
      (by decide) (by decide) (by decide) (by decide) (30, 19, (30:ℚ)/19)
      hok _ hseq⟩

/-- State-passing form of the static method `gear_ratio`: its body reads no
instance attribute and assigns none, so the threaded instance is returned
unchanged. -/
def gear_ratioS (d : Drivetrain) (f r : ℕ) : ℚ × Drivetrain :=
  (gear_ratio f r, d)

/-- State-passing form of `get_gear_combination`: its body reads
`self.front_cogs` and `self.rear_cogs`, sorts only the local list
`valid_combinations`, and assigns no instance attribute. -/
def get_gear_combinationS (d : Drivetrain) (t : ℚ) :
    Except DtError Combo × Drivetrain :=
  (get_gear_combination d t, d)

/-- State-passing form of `get_shift_sequence`: its body mutates only the
local variables and the local `shift_sequence` list, and assigns no instance
attribute. -/
def get_shift_sequenceS (d : Drivetrain) (t : ℚ) (g : ℕ × ℕ) :
    Except DtError (List Combo) × Drivetrain :=
  (get_shift_sequence d t g, d)

/-- State-passing form of `format_shift_sequence`: a pure renderer assigning
no instance attribute. -/
def format_shift_sequenceS (d : Drivetrain) (s : List Combo) :
    String × Drivetrain :=
  (format_shift_sequence d s, d)

/-- C9: the constructor stores both cog lists ascending sorted, and no
method mutates them — each method, in state-passing form, returns the
drivetrain unchanged, so sortedness is an invariant for the object's
lifetime. -/
theorem constructor_sorts_and_methods_preserve (front rear : List ℕ) :
    (mkDrivetrain front rear).front_cogs.Sorted (· ≤ ·) ∧
    (mkDrivetrain front rear).rear_cogs.Sorted (· ≤ ·) ∧
    (∀ (d : Drivetrain) (f r : ℕ), (gear_ratioS d f r).2 = d) ∧
    (∀ (d : Drivetrain) (t : ℚ), (get_gear_combinationS d t).2 = d) ∧
    (∀ (d : Drivetrain) (t : ℚ) (g : ℕ × ℕ),
      (get_shift_sequenceS d t g).2 = d) ∧
    (∀ (d : Drivetrain) (s : List Combo), (format_shift_sequenceS d s).2 = d) :=
  ⟨List.sorted_insertionSort _ _, List.sorted_insertionSort _ _,
    fun _ _ _ => rfl, fun _ _ => rfl, fun _ _ _ => rfl, fun _ _ => rfl⟩

end SRAM
